import Mathlib

/-!
Shallow embedding of the host package-manifest generation pipeline
(`GeneratePackageManifest` and its helpers): OS-release parsing,
package-manager detection, package enumeration/output parsing, and
active-kernel filtering.  Strings are modelled as lists of characters
(`Str`), and the Go standard-library string operations used by the code
(`strings.Contains`, `strings.TrimPrefix`, `strings.TrimSuffix`,
`strings.Trim`, `strings.Split`, `strings.Replace` with count 1,
`strings.Join`) are given explicit executable definitions with the same
semantics.  External effects (running commands, reading files) are
modelled by passing their observable results as parameters: the active
kernel detection result is an `Option Str` (`none` = the `uname -r`
command failed), a package-manager presence check is a predicate
`Str → Bool`, and the release file is a list of its lines.
-/

/-- Strings as lists of characters. -/
abbrev Str := List Char

/-- Conversion from Lean string literals to the character-list model. -/
def s2l (s : String) : Str := s.data

/-- Go `strings.Contains(s, pat)`: `pat` occurs contiguously in `s`
(the empty pattern occurs in every string). -/
def containsStr : Str → Str → Bool
  | [], pat => pat.isEmpty
  | c :: rest, pat => pat.isPrefixOf (c :: rest) || containsStr rest pat

/-- Go `strings.TrimPrefix(s, pre)`: drop `pre` from the front of `s`
when it is a prefix, otherwise return `s` unchanged. -/
def trimPrefixStr (s pre : Str) : Str :=
  if pre.isPrefixOf s then s.drop pre.length else s

/-- Go `strings.TrimSuffix(s, suf)`: drop `suf` from the end of `s`
when it is a suffix, otherwise return `s` unchanged. -/
def trimSuffixStr (s suf : Str) : Str :=
  if suf.isSuffixOf s then s.take (s.length - suf.length) else s

/-- Go `strings.Trim(s, cutset)` for a one-character cutset: remove all
leading and trailing occurrences of `c`. -/
def trimChar (c : Char) (s : Str) : Str :=
  ((s.dropWhile (· = c)).reverse.dropWhile (· = c)).reverse

/-- Go `strings.Split(s, sep)` for a one-character separator (never
returns an empty list; splitting the empty string yields `[[]]`). -/
def splitChar (sep : Char) : Str → List Str
  | [] => [[]]
  | x :: xs =>
    if x = sep then [] :: splitChar sep xs
    else
      match splitChar sep xs with
      | [] => [[x]]
      | h :: t => (x :: h) :: t

/-- Go `strings.Replace(s, old, "", 1)`: remove the first occurrence of
`old` from `s` (if `old` does not occur, `s` is unchanged; an empty
`old` matches at the front and removes nothing). -/
def goReplaceFirst : Str → Str → Str
  | [], _ => []
  | c :: rest, old =>
    if old.isPrefixOf (c :: rest) then (c :: rest).drop old.length
    else c :: goReplaceFirst rest old

/-- One record of the package manifest (`api.OsPkgInfo`). -/
structure OsPkgInfo where
  Os : Str
  OsVer : Str
  Pkg : Str
  PkgVer : Str
deriving DecidableEq

/-- `api.PackageManifest` is its ordered `OsPkgInfoList`. -/
abbrev PackageManifest := List OsPkgInfo

/-- The `OS` struct produced by `GetOSInfo`. -/
structure OS where
  Name : Str
  Version : Str
deriving DecidableEq

/-- The fixed ordered candidate list probed by `DetectPackageManager`. -/
def SupportedPackageManagers : List Str := [s2l "dpkg-query", s2l "rpm"]

/-- `removeEpochFromPkgVersion`: if the version contains a colon, split
on colons; when that yields exactly two fields return the second,
otherwise return the version unchanged. -/
def removeEpochFromPkgVersion (pkgVer : Str) : Str :=
  if containsStr pkgVer (s2l ":") then
    match splitChar ':' pkgVer with
    | [_, v] => v
    | _ => pkgVer
  else pkgVer

/-- The record loop of `removeInactivePackagesFromManifest`: the Go
`for`/`switch` that appends each record to the new manifest unless a
`continue` drops it.  Under `rpm` a record is dropped when its name is
the literal `kernel` and its epoch-stripped version does not occur in
the active kernel string; under `dpkg-query` when its name contains
`linux-image-` and the name with that prefix trimmed does not occur in
the active kernel string; under any other manager nothing is dropped. -/
def removeInactiveLoop (manager activeKernel : Str) : PackageManifest → PackageManifest
  | [] => []
  | pkg :: rest =>
    if manager = s2l "rpm" then
      if pkg.Pkg = s2l "kernel" ∧ containsStr activeKernel (removeEpochFromPkgVersion pkg.PkgVer) = false then
        removeInactiveLoop manager activeKernel rest
      else pkg :: removeInactiveLoop manager activeKernel rest
    else if manager = s2l "dpkg-query" then
      if containsStr pkg.Pkg (s2l "linux-image-") = true then
        if containsStr activeKernel (trimPrefixStr pkg.Pkg (s2l "linux-image-")) = false then
          removeInactiveLoop manager activeKernel rest
        else pkg :: removeInactiveLoop manager activeKernel rest
      else pkg :: removeInactiveLoop manager activeKernel rest
    else pkg :: removeInactiveLoop manager activeKernel rest

/-- `removeInactivePackagesFromManifest`: the result of
`detectActiveKernel` is passed as `activeKernel` (`none` = the
`uname -r` command failed, in which case the manifest is returned
unmodified); otherwise the record loop runs with the detected kernel. -/
def removeInactivePackagesFromManifest (manifest : PackageManifest) (manager : Str)
    (activeKernel : Option Str) : PackageManifest :=
  match activeKernel with
  | none => manifest
  | some kernel => removeInactiveLoop manager kernel manifest

/-- The error message built by `DetectPackageManager` when no supported
package manager is found. -/
def noManagerMsg : Str :=
  s2l "unable to find supported package managers." ++
    s2l " Supported package managers are " ++
    List.intercalate (s2l ", ") SupportedPackageManagers ++ s2l "."

/-- The candidate loop of `DetectPackageManager`, over a presence
predicate (`checkPackageManager` shells out to `which`/`command -v`;
its observable result is the Bool). -/
def detectLoop (present : Str → Bool) : List Str → Except Str Str
  | [] => Except.error noManagerMsg
  | m :: rest => if present m then Except.ok m else detectLoop present rest

/-- `DetectPackageManager`: probe `SupportedPackageManagers` in order. -/
def DetectPackageManager (present : Str → Bool) : Except Str Str :=
  detectLoop present SupportedPackageManagers

/-- One line of package-manager output, as parsed by the record loop of
`GeneratePackageManifest`: split on commas; exactly two fields give a
fully populated record, anything else gives no record. -/
def pkgLineRecord (osName osVer : Str) (pkg : Str) : Option OsPkgInfo :=
  match splitChar ',' pkg with
  | [a, b] => some ⟨osName, osVer, a, b⟩
  | _ => none

/-- The record loop of `GeneratePackageManifest`: for each line, split
on commas; if the split does not have exactly two elements the line is
skipped (`continue`), otherwise a record is appended. -/
def pkgLoop (osName osVer : Str) : List Str → List OsPkgInfo
  | [] => []
  | pkg :: rest =>
    match splitChar ',' pkg with
    | [a, b] => ⟨osName, osVer, a, b⟩ :: pkgLoop osName osVer rest
    | _ => pkgLoop osName osVer rest

/-- Output parsing of `GeneratePackageManifest`: trim one trailing
newline, split on newlines, then run the record loop. -/
def parseManagerOutput (osName osVer : Str) (managerQuery : Str) : List OsPkgInfo :=
  pkgLoop osName osVer (splitChar '\n' (trimSuffixStr managerQuery (s2l "\n")))

/-- The scanner loop of `GetOSInfo`: each line is matched against
`^ID=(.*)$` and then `^VERSION_ID=(.*)$` (on a newline-free scanner
line these regexes match exactly the lines with that prefix and
capture the rest); the captured value has surrounding double quotes
trimmed and overwrites the field. -/
def scanOSRelease (osInfo : OS) : List Str → OS
  | [] => osInfo
  | line :: rest =>
    if (s2l "ID=").isPrefixOf line then
      scanOSRelease { osInfo with Name := trimChar '"' (line.drop (s2l "ID=").length) } rest
    else if (s2l "VERSION_ID=").isPrefixOf line then
      scanOSRelease { osInfo with Version := trimChar '"' (line.drop (s2l "VERSION_ID=").length) } rest
    else scanOSRelease osInfo rest

/-- `GetOSInfo` on the lines of a readable release file: both fields
start empty and are filled by the scanner loop. -/
def GetOSInfo (lines : List Str) : OS := scanOSRelease ⟨[], []⟩ lines

/-- The value `^ID=(.*)$` extracts from a line (quotes trimmed), when
the line matches. -/
def idLineValue (line : Str) : Option Str :=
  if (s2l "ID=").isPrefixOf line then some (trimChar '"' (line.drop (s2l "ID=").length)) else none

/-- The value `^VERSION_ID=(.*)$` extracts from a line (quotes
trimmed), when the line matches. -/
def verLineValue (line : Str) : Option Str :=
  if (s2l "VERSION_ID=").isPrefixOf line then
    some (trimChar '"' (line.drop (s2l "VERSION_ID=").length))
  else none

/-- The `name,version` line the apk branch builds at one position:
`fmt.Sprintf("%s,%s", name, strings.Trim(strings.Replace(pkg, name, "", 1), "-"))`. -/
def apkCombine (name pkg : Str) : Str :=
  name ++ [','] ++ trimChar '-' (goReplaceFirst pkg name)

/-- The apk reconstruction loop of `GeneratePackageManifest`: iterate
`apkInfoWithVersionArray` with index `i`, reading `apkInfoArray[i]`
with no bounds check; an out-of-range index is a runtime panic,
modelled as `none`. -/
def apkLoop (names : List Str) (i : Nat) : List Str → Option (List Str)
  | [] => some []
  | pkg :: rest =>
    match names[i]? with
    | none => none
    | some name => (apkLoop names (i + 1) rest).map (fun tl => apkCombine name pkg :: tl)

/-- The apk branch's reconstruction of `name,version` lines from the
two listings (`apk info` names and `apk info -v` versioned entries). -/
def apkReconstruct (names versioned : List Str) : Option (List Str) :=
  apkLoop names 0 versioned

/-- The last element of a list, or a default when the list is empty
(used to state which matching line wins in the release-file scan). -/
def lastOr {α : Type} (l : List α) (d : α) : α :=
  match l with
  | [] => d
  | a :: rest => lastOr rest a

/-- Modelled from the spec (claim wording, for comparison with the
code): strip everything up to and including the first colon; a string
with no colon is unchanged. -/
def dropThroughFirst (sep : Char) : Str → Str
  | [] => []
  | c :: rest => if c = sep then rest else dropThroughFirst sep rest

/-- Modelled from the spec (claim wording): the epoch prefix — the text
before the first colon — is removed together with the colon; a string
containing no colon is unchanged. -/
def specStripEpoch (s : Str) : Str :=
  if ':' ∈ s then dropThroughFirst ':' s else s

/-- Modelled from the spec (claim wording): the apk version is the
versioned entry with its name prefix stripped and any leftover leading
hyphen removed. -/
def specApkVersion (name versioned : Str) : Str :=
  (trimPrefixStr versioned name).dropWhile (· = '-')

/-- The keep-decision the removal loop makes for a single record,
as a Boolean predicate. -/
def keepRecord (manager activeKernel : Str) (pkg : OsPkgInfo) : Bool :=
  if manager = s2l "rpm" then
    decide ¬(pkg.Pkg = s2l "kernel" ∧
      containsStr activeKernel (removeEpochFromPkgVersion pkg.PkgVer) = false)
  else if manager = s2l "dpkg-query" then
    decide ¬(containsStr pkg.Pkg (s2l "linux-image-") = true ∧
      containsStr activeKernel (trimPrefixStr pkg.Pkg (s2l "linux-image-")) = false)
  else true

theorem removeInactiveLoop_eq_filter (manager activeKernel : Str) (l : PackageManifest) :
    removeInactiveLoop manager activeKernel l = l.filter (keepRecord manager activeKernel) := by
  induction l with
  | nil => rfl
  | cons pkg rest ih =>
    have hne : ¬(s2l "dpkg-query" = s2l "rpm") := by decide
    by_cases hr : manager = s2l "rpm"
    · subst hr
      by_cases hd : pkg.Pkg = s2l "kernel" ∧
          containsStr activeKernel (removeEpochFromPkgVersion pkg.PkgVer) = false
      · simp [removeInactiveLoop, keepRecord, hd, ih, List.filter_cons]
      · simp [removeInactiveLoop, keepRecord, hd, ih, List.filter_cons]
    · by_cases hq : manager = s2l "dpkg-query"
      · subst hq
        by_cases hk : containsStr pkg.Pkg (s2l "linux-image-") = true
        · by_cases ha : containsStr activeKernel (trimPrefixStr pkg.Pkg (s2l "linux-image-")) = false
          · simp [removeInactiveLoop, keepRecord, hne, hk, ha, ih, List.filter_cons]
          · simp [removeInactiveLoop, keepRecord, hne, hk, ha, ih, List.filter_cons]
        · simp [removeInactiveLoop, keepRecord, hne, hk, ih, List.filter_cons]
      · simp [removeInactiveLoop, keepRecord, hr, hq, ih, List.filter_cons]

theorem filter_idem {α : Type} (p : α → Bool) (l : List α) :
    (l.filter p).filter p = l.filter p := by
  induction l with
  | nil => rfl
  | cons a rest ih =>
    by_cases h : p a = true
    · simp [List.filter_cons, h, ih]
    · simp [List.filter_cons, h, ih]

theorem splitChar_ne_nil (sep : Char) (s : Str) : splitChar sep s ≠ [] := by
  induction s with
  | nil => simp [splitChar]
  | cons x xs ih =>
    by_cases h : x = sep
    · simp [splitChar, h]
    · cases hr : splitChar sep xs with
      | nil => exact absurd hr ih
      | cons hd tl => simp [splitChar, h, hr]

theorem splitChar_length (sep : Char) (s : Str) :
    (splitChar sep s).length = s.count sep + 1 := by
  induction s with
  | nil => simp [splitChar]
  | cons x xs ih =>
    by_cases h : x = sep
    · subst h
      simp [splitChar, List.count_cons_self, ih]
    · cases hr : splitChar sep xs with
      | nil => exact absurd hr (splitChar_ne_nil sep xs)
      | cons hd tl =>
        rw [hr] at ih
        have hcnt : (x :: xs).count sep = xs.count sep :=
          List.count_cons_of_ne (fun hc => h hc.symm) xs
        simp only [splitChar, if_neg h, hr, List.length_cons, hcnt] at *
        omega

theorem splitChar_eq_single (sep : Char) (s v : Str) (h : splitChar sep s = [v]) : v = s := by
  induction s generalizing v with
  | nil =>
    simp only [splitChar, List.cons.injEq, and_true] at h
    exact h.symm
  | cons x xs ih =>
    by_cases hx : x = sep
    · simp only [splitChar, if_pos hx, List.cons.injEq] at h
      exact absurd h.2 (splitChar_ne_nil sep xs)
    · cases hr : splitChar sep xs with
      | nil => exact absurd hr (splitChar_ne_nil sep xs)
      | cons hd tl =>
        simp only [splitChar, if_neg hx, hr, List.cons.injEq] at h
        obtain ⟨hv, htl⟩ := h
        subst htl
        have := ih hd hr
        subst this
        exact hv.symm

theorem splitChar_eq_pair (sep : Char) (s u v : Str) (h : splitChar sep s = [u, v]) :
    v = dropThroughFirst sep s := by
  induction s generalizing u v with
  | nil => simp [splitChar] at h
  | cons x xs ih =>
    by_cases hx : x = sep
    · simp only [splitChar, if_pos hx, List.cons.injEq] at h
      have hv : v = xs := splitChar_eq_single sep xs v h.2
      simp [dropThroughFirst, hx, hv]
    · cases hr : splitChar sep xs with
      | nil => exact absurd hr (splitChar_ne_nil sep xs)
      | cons hd tl =>
        simp only [splitChar, if_neg hx, hr, List.cons.injEq] at h
        obtain ⟨hu, htl⟩ := h
        rw [htl] at hr
        have := ih hd v hr
        simp [dropThroughFirst, hx, this]

theorem containsStr_single (s : Str) (c : Char) :
    containsStr s [c] = true ↔ c ∈ s := by
  induction s with
  | nil => simp [containsStr, List.isEmpty]
  | cons x xs ih =>
    simp [containsStr, List.isPrefixOf, ih, List.mem_cons, beq_iff_eq]

theorem pkgLoop_eq_filterMap (osName osVer : Str) (lines : List Str) :
    pkgLoop osName osVer lines = lines.filterMap (pkgLineRecord osName osVer) := by
  induction lines with
  | nil => rfl
  | cons pkg rest ih =>
    rcases hs : splitChar ',' pkg with _ | ⟨a, _ | ⟨b, _ | ⟨c, t⟩⟩⟩ <;>
      simp [pkgLoop, pkgLineRecord, hs, ih, List.filterMap_cons]

theorem pkgLineRecord_eq_none (osName osVer : Str) (pkg : Str)
    (h : (splitChar ',' pkg).length ≠ 2) : pkgLineRecord osName osVer pkg = none := by
  rcases hs : splitChar ',' pkg with _ | ⟨a, _ | ⟨b, _ | ⟨c, t⟩⟩⟩
  · simp [pkgLineRecord, hs]
  · simp [pkgLineRecord, hs]
  · exfalso
    exact h (by rw [hs]; rfl)
  · simp [pkgLineRecord, hs]

theorem scanOSRelease_append (l1 l2 : List Str) (osInfo : OS) :
    scanOSRelease osInfo (l1 ++ l2) = scanOSRelease (scanOSRelease osInfo l1) l2 := by
  induction l1 generalizing osInfo with
  | nil => rfl
  | cons line rest ih =>
    by_cases h1 : (s2l "ID=").isPrefixOf line = true
    · simp [scanOSRelease, h1, ih]
    · by_cases h2 : (s2l "VERSION_ID=").isPrefixOf line = true <;>
        simp [scanOSRelease, h1, h2, ih]

theorem id_not_version (line : Str) (h : (s2l "ID=").isPrefixOf line = true) :
    (s2l "VERSION_ID=").isPrefixOf line = false := by
  have hid : s2l "ID=" = ['I', 'D', '='] := rfl
  have hver : s2l "VERSION_ID=" = ['V', 'E', 'R', 'S', 'I', 'O', 'N', '_', 'I', 'D', '='] := rfl
  cases line with
  | nil =>
    rw [hid] at h
    simp [List.isPrefixOf] at h
  | cons c rest =>
    rw [hid] at h
    rw [hver]
    simp only [List.isPrefixOf, Bool.and_eq_true, beq_iff_eq] at h
    have hc : c = 'I' := h.1.symm
    subst hc
    simp [List.isPrefixOf]

theorem scanOSRelease_name (lines : List Str) : ∀ osInfo : OS,
    (scanOSRelease osInfo lines).Name = lastOr (lines.filterMap idLineValue) osInfo.Name := by
  induction lines with
  | nil => intro osInfo; rfl
  | cons line rest ih =>
    intro osInfo
    by_cases h1 : (s2l "ID=").isPrefixOf line = true
    · simp only [scanOSRelease, if_pos h1, List.filterMap_cons,
        show idLineValue line = some (trimChar '"' (line.drop (s2l "ID=").length)) from
          by simp [idLineValue, h1]]
      rw [ih]
      rfl
    · by_cases h2 : (s2l "VERSION_ID=").isPrefixOf line = true
      · simp only [scanOSRelease, if_neg h1, if_pos h2, List.filterMap_cons,
          show idLineValue line = none from by simp [idLineValue, h1]]
        rw [ih]
      · simp only [scanOSRelease, if_neg h1, if_neg h2, List.filterMap_cons,
          show idLineValue line = none from by simp [idLineValue, h1]]
        rw [ih]

theorem scanOSRelease_version (lines : List Str) : ∀ osInfo : OS,
    (scanOSRelease osInfo lines).Version = lastOr (lines.filterMap verLineValue) osInfo.Version := by
  induction lines with
  | nil => intro osInfo; rfl
  | cons line rest ih =>
    intro osInfo
    by_cases h1 : (s2l "ID=").isPrefixOf line = true
    · have h2 : (s2l "VERSION_ID=").isPrefixOf line = false := id_not_version line h1
      simp only [scanOSRelease, if_pos h1, List.filterMap_cons,
        show verLineValue line = none from by simp [verLineValue, h2]]
      rw [ih]
    · by_cases h2 : (s2l "VERSION_ID=").isPrefixOf line = true
      · simp only [scanOSRelease, if_neg h1, if_pos h2, List.filterMap_cons,
          show verLineValue line = some (trimChar '"' (line.drop (s2l "VERSION_ID=").length)) from
            by simp [verLineValue, h2]]
        rw [ih]
        rfl
      · simp only [scanOSRelease, if_neg h1, if_neg h2, List.filterMap_cons,
          show verLineValue line = none from by simp [verLineValue, h2]]
        rw [ih]

theorem apkLoop_eq (names : List Str) (versioned : List Str) : ∀ i : Nat,
    i + versioned.length ≤ names.length →
    apkLoop names i versioned = some (List.zipWith apkCombine (names.drop i) versioned) := by
  induction versioned with
  | nil => intro i h; simp [apkLoop]
  | cons pkg rest ih =>
    intro i h
    have hi : i < names.length := by
      simp only [List.length_cons] at h
      omega
    have hname : names[i]? = some names[i] := List.getElem?_eq_getElem hi
    have hdrop : names.drop i = names[i] :: names.drop (i + 1) :=
      List.drop_eq_getElem_cons hi
    simp only [apkLoop, hname]
    rw [ih (i + 1) (by simp only [List.length_cons] at h; omega)]
    rw [hdrop]
    simp [List.zipWith]

theorem detectLoop_eq_find (present : Str → Bool) (l : List Str) :
    detectLoop present l =
      (match l.find? present with
       | some m => Except.ok m
       | none => Except.error noManagerMsg) := by
  induction l with
  | nil => rfl
  | cons m rest ih =>
    by_cases h : present m = true
    · simp [detectLoop, List.find?_cons, h]
    · simp [detectLoop, List.find?_cons, h, ih]

/-- C1: under the `rpm` manager, filtering removes exactly the records
whose package name is the literal `kernel` and whose epoch-stripped
version is not a substring of the active kernel string; every other
record passes through unchanged and in its original relative order
(the result is exactly `List.filter` of the manifest). -/
theorem rpm_filter_removes_exactly_inactive_kernel_records
    (manifest : PackageManifest) (activeKernel : Str) :
    removeInactivePackagesFromManifest manifest (s2l "rpm") (some activeKernel) =
      manifest.filter (fun pkg =>
        decide ¬(pkg.Pkg = s2l "kernel" ∧
          containsStr activeKernel (removeEpochFromPkgVersion pkg.PkgVer) = false)) := by
  show removeInactiveLoop (s2l "rpm") activeKernel manifest = _
  rw [removeInactiveLoop_eq_filter]
  have hfun : keepRecord (s2l "rpm") activeKernel = fun pkg =>
      decide ¬(pkg.Pkg = s2l "kernel" ∧
        containsStr activeKernel (removeEpochFromPkgVersion pkg.PkgVer) = false) := by
    funext pkg
    simp [keepRecord]
  rw [hfun]

/-- C2 counterexample: a record whose name does not start with
`linux-image-` but merely contains it is removed by the `dpkg-query`
filter, so the claim that such records are never removed is false. -/
theorem dpkg_filter_drops_record_without_image_name_start :
    removeInactivePackagesFromManifest
        [⟨[], [], s2l "xlinux-image-5.0", s2l "1"⟩] (s2l "dpkg-query") (some (s2l "5.0")) = []
      ∧ (s2l "linux-image-").isPrefixOf (s2l "xlinux-image-5.0") = false := by
  decide

/-- C2 (amended): under `dpkg-query`, filtering removes exactly the
records whose name *contains* the substring `linux-image-` and whose
derived version (the name with a leading `linux-image-` prefix removed
when it is a prefix, otherwise the whole name) is not a substring of
the active kernel string; records whose name does not contain
`linux-image-` are never removed, and survivors keep their order. -/
theorem dpkg_filter_removes_exactly_inactive_image_records
    (manifest : PackageManifest) (activeKernel : Str) :
    removeInactivePackagesFromManifest manifest (s2l "dpkg-query") (some activeKernel) =
      manifest.filter (fun pkg =>
        decide ¬(containsStr pkg.Pkg (s2l "linux-image-") = true ∧
          containsStr activeKernel (trimPrefixStr pkg.Pkg (s2l "linux-image-")) = false)) := by
  show removeInactiveLoop (s2l "dpkg-query") activeKernel manifest = _
  rw [removeInactiveLoop_eq_filter]
  have hne : ¬(s2l "dpkg-query" = s2l "rpm") := by decide
  have hfun : keepRecord (s2l "dpkg-query") activeKernel = fun pkg =>
      decide ¬(containsStr pkg.Pkg (s2l "linux-image-") = true ∧
        containsStr activeKernel (trimPrefixStr pkg.Pkg (s2l "linux-image-")) = false) := by
    funext pkg
    simp [keepRecord, hne]
  rw [hfun]

/-- C3 counterexample: on `1:2:3` the code's epoch removal returns the
string unchanged, while stripping everything up to and including the
first colon would return `2:3`; the claim as stated is false. -/
theorem removeEpoch_disagrees_with_first_colon_strip :
    removeEpochFromPkgVersion (s2l "1:2:3") ≠ specStripEpoch (s2l "1:2:3") := by
  decide

/-- C3 (amended): the epoch removal strips everything up to and
including the first colon only when the version contains exactly one
colon; a version with no colon — and also any version with two or more
colons — is returned unchanged. -/
theorem removeEpoch_strips_only_single_colon (pkgVer : Str) :
    removeEpochFromPkgVersion pkgVer =
      if pkgVer.count ':' = 1 then dropThroughFirst ':' pkgVer else pkgVer := by
  have hcolon : s2l ":" = [':'] := rfl
  by_cases hc : containsStr pkgVer (s2l ":") = true
  · have hmem : ':' ∈ pkgVer := by
      rw [hcolon] at hc
      exact (containsStr_single pkgVer ':').mp hc
    rcases hs : splitChar ':' pkgVer with _ | ⟨u, _ | ⟨v, _ | ⟨w, t⟩⟩⟩
    · exact absurd hs (splitChar_ne_nil ':' pkgVer)
    · have hlen := splitChar_length ':' pkgVer
      rw [hs] at hlen
      have hcount : pkgVer.count ':' = 0 := by
        simp only [List.length_cons, List.length_nil] at hlen
        omega
      exact absurd hmem (List.count_eq_zero.mp hcount)
    · have hlen := splitChar_length ':' pkgVer
      rw [hs] at hlen
      have hcount : pkgVer.count ':' = 1 := by
        simp only [List.length_cons, List.length_nil] at hlen
        omega
      have hv := splitChar_eq_pair ':' pkgVer u v hs
      simp only [removeEpochFromPkgVersion, if_pos hc, hs]
      rw [if_pos hcount, ← hv]
    · have hlen := splitChar_length ':' pkgVer
      rw [hs] at hlen
      have hcount : ¬(pkgVer.count ':' = 1) := by
        simp only [List.length_cons] at hlen
        omega
      simp only [removeEpochFromPkgVersion, if_pos hc, hs]
      rw [if_neg hcount]
  · have hmem : ':' ∉ pkgVer := by
      intro hm
      rw [hcolon] at hc
      exact hc ((containsStr_single pkgVer ':').mpr hm)
    have hcount : ¬(pkgVer.count ':' = 1) := by
      rw [List.count_eq_zero.mpr hmem]
      omega
    simp only [removeEpochFromPkgVersion, if_neg hc]
    rw [if_neg hcount]

/-- C4: the kernel filter is idempotent — filtering an already-filtered
manifest with the same manager and the same active kernel string is a
no-op. -/
theorem kernel_filter_idempotent (manifest : PackageManifest) (manager activeKernel : Str) :
    removeInactivePackagesFromManifest
        (removeInactivePackagesFromManifest manifest manager (some activeKernel))
        manager (some activeKernel) =
      removeInactivePackagesFromManifest manifest manager (some activeKernel) := by
  show removeInactiveLoop manager activeKernel (removeInactiveLoop manager activeKernel manifest) =
    removeInactiveLoop manager activeKernel manifest
  rw [removeInactiveLoop_eq_filter, removeInactiveLoop_eq_filter]
  exact filter_idem _ _

/-- C5: when active-kernel detection fails (the `uname -r` command
errors, modelled as `none`), the filter returns the manifest with the
same record list for every manager — the failure never becomes an
error of the pipeline (the function's result type carries none). -/
theorem filter_skipped_on_kernel_detection_failure
    (manifest : PackageManifest) (manager : Str) :
    removeInactivePackagesFromManifest manifest manager none = manifest := rfl

/-- C6: detection iterates `[dpkg-query, rpm]` in list order and
returns the first manager whose presence check succeeds (in particular
`dpkg-query` when it is present, even if `rpm` also is); when no check
succeeds it fails with an error whose message contains both attempted
manager names. -/
theorem detect_returns_first_present_manager (present : Str → Bool) :
    DetectPackageManager present =
      (match SupportedPackageManagers.find? present with
       | some m => Except.ok m
       | none => Except.error noManagerMsg)
    ∧ (present (s2l "dpkg-query") = true →
        DetectPackageManager present = Except.ok (s2l "dpkg-query"))
    ∧ (present (s2l "dpkg-query") = false → present (s2l "rpm") = false →
        DetectPackageManager present = Except.error noManagerMsg)
    ∧ containsStr noManagerMsg (s2l "dpkg-query") = true
    ∧ containsStr noManagerMsg (s2l "rpm") = true := by
  refine ⟨detectLoop_eq_find present SupportedPackageManagers, ?_, ?_, by decide, by decide⟩
  · intro h
    simp [DetectPackageManager, SupportedPackageManagers, detectLoop, h]
  · intro h1 h2
    simp [DetectPackageManager, SupportedPackageManagers, detectLoop, h1, h2]

theorem detect_returns_first_present_manager_witness :
    DetectPackageManager (fun _ => true) = Except.ok (s2l "dpkg-query")
    ∧ DetectPackageManager (fun _ => false) = Except.error noManagerMsg :=
  ⟨(detect_returns_first_present_manager (fun _ => true)).2.1 rfl,
   (detect_returns_first_present_manager (fun _ => false)).2.2.1 rfl rfl⟩

/-- C7: parsing of package-manager output is exactly a `filterMap` of
the split lines — a line that does not split into exactly two
comma-delimited fields (such as `onlyonefield`) yields no record while
every other line still yields its record, so a malformed line can be
deleted from the input without changing the result, and parsing never
fails or emits a partially populated record. -/
theorem malformed_lines_are_skipped (osName osVer : Str) :
    (∀ raw : Str, parseManagerOutput osName osVer raw =
        (splitChar '\n' (trimSuffixStr raw (s2l "\n"))).filterMap (pkgLineRecord osName osVer))
    ∧ (∀ xs ys : List Str, ∀ bad : Str, (splitChar ',' bad).length ≠ 2 →
        pkgLoop osName osVer (xs ++ bad :: ys) = pkgLoop osName osVer (xs ++ ys))
    ∧ (splitChar ',' (s2l "onlyonefield")).length ≠ 2 := by
  refine ⟨?_, ?_, by decide⟩
  · intro raw
    exact pkgLoop_eq_filterMap osName osVer _
  · intro xs ys bad h
    rw [pkgLoop_eq_filterMap, pkgLoop_eq_filterMap]
    simp [List.filterMap_append, List.filterMap_cons, pkgLineRecord_eq_none osName osVer bad h]

theorem malformed_lines_are_skipped_witness :
    pkgLoop [] [] ([s2l "a,b"] ++ (s2l "onlyonefield") :: [s2l "c,d"]) =
      pkgLoop [] [] ([s2l "a,b"] ++ [s2l "c,d"]) :=
  (malformed_lines_are_skipped [] []).2.1 [s2l "a,b"] [s2l "c,d"] (s2l "onlyonefield") (by decide)

/-- C8: OS-info parsing extracts exactly the `ID=` and `VERSION_ID=`
values with surrounding double quotes stripped (the last matching line
determines each field), lines matching neither pattern never affect
the result, and when no line matches a pattern the corresponding field
is the empty string — no error is possible (the function is total). -/
theorem osinfo_extracts_exactly_id_and_version :
    (∀ lines : List Str,
        (GetOSInfo lines).Name = lastOr (lines.filterMap idLineValue) []
        ∧ (GetOSInfo lines).Version = lastOr (lines.filterMap verLineValue) [])
    ∧ (∀ l1 l2 : List Str, ∀ bad : Str,
        (s2l "ID=").isPrefixOf bad = false → (s2l "VERSION_ID=").isPrefixOf bad = false →
        GetOSInfo (l1 ++ bad :: l2) = GetOSInfo (l1 ++ l2))
    ∧ (∀ lines : List Str, (∀ line ∈ lines, idLineValue line = none) →
        (GetOSInfo lines).Name = [])
    ∧ (∀ lines : List Str, (∀ line ∈ lines, verLineValue line = none) →
        (GetOSInfo lines).Version = []) := by
  refine ⟨?_, ?_, ?_, ?_⟩
  · intro lines
    exact ⟨scanOSRelease_name lines ⟨[], []⟩, scanOSRelease_version lines ⟨[], []⟩⟩
  · intro l1 l2 bad h1 h2
    show scanOSRelease ⟨[], []⟩ (l1 ++ bad :: l2) = scanOSRelease ⟨[], []⟩ (l1 ++ l2)
    rw [scanOSRelease_append, scanOSRelease_append]
    simp [scanOSRelease, h1, h2]
  · intro lines h
    have hn : (GetOSInfo lines).Name = lastOr (lines.filterMap idLineValue) [] :=
      scanOSRelease_name lines ⟨[], []⟩
    rw [hn, List.filterMap_eq_nil_iff.mpr h]
    rfl
  · intro lines h
    have hv : (GetOSInfo lines).Version = lastOr (lines.filterMap verLineValue) [] :=
      scanOSRelease_version lines ⟨[], []⟩
    rw [hv, List.filterMap_eq_nil_iff.mpr h]
    rfl

theorem osinfo_extracts_exactly_id_and_version_witness :
    GetOSInfo ([s2l "ID=a"] ++ (s2l "NAME=x") :: [s2l "VERSION_ID=7"]) =
      GetOSInfo ([s2l "ID=a"] ++ [s2l "VERSION_ID=7"])
    ∧ (GetOSInfo [s2l "PRETTY_NAME=z"]).Name = [] :=
  ⟨osinfo_extracts_exactly_id_and_version.2.1 [s2l "ID=a"] [s2l "VERSION_ID=7"]
      (s2l "NAME=x") (by decide) (by decide),
   osinfo_extracts_exactly_id_and_version.2.2.1 [s2l "PRETTY_NAME=z"] (by decide)⟩

/-- C9 counterexample: with bare name `a` and versioned entry `a-1-`
(equal line counts), the code produces the pair `a,1` — it trims
trailing hyphens as well — while stripping the name prefix and a
leftover leading hyphen would give `a,1-`; the claim as stated is
false. -/
theorem apk_version_differs_from_prefix_strip :
    apkReconstruct [s2l "a"] [s2l "a-1-"] ≠
      some [s2l "a" ++ [','] ++ specApkVersion (s2l "a") (s2l "a-1-")] := by
  decide

/-- C9 (amended): for apk listings with equal line counts, the
reconstruction pairs positionally the bare name with the versioned
entry after removing the first occurrence of the name (anywhere in the
entry, not only as a prefix) and trimming all leading *and trailing*
hyphens. -/
theorem apk_reconstruction_is_positional (names versioned : List Str)
    (h : versioned.length = names.length) :
    apkReconstruct names versioned = some (List.zipWith apkCombine names versioned) := by
  have := apkLoop_eq names versioned 0 (by omega)
  simpa [apkReconstruct] using this

theorem apk_reconstruction_is_positional_witness :
    apkReconstruct [s2l "bash"] [s2l "bash-5.1"] =
      some (List.zipWith apkCombine [s2l "bash"] [s2l "bash-5.1"]) :=
  apk_reconstruction_is_positional [s2l "bash"] [s2l "bash-5.1"] rfl

/-- C10: whenever the versioned apk listing has at most as many lines
as the bare-name listing, every unchecked index access in the
reconstruction loop is in bounds (the out-of-bounds branch, modelled
as `none`, is unreachable); the precondition is necessary — with an
empty bare-name listing and one versioned line the access is out of
bounds. -/
theorem apk_indexing_in_bounds :
    (∀ names versioned : List Str, versioned.length ≤ names.length →
      (apkReconstruct names versioned).isSome = true)
    ∧ apkReconstruct [] [[]] = none := by
  refine ⟨?_, by decide⟩
  intro names versioned h
  rw [apkReconstruct, apkLoop_eq names versioned 0 (by omega)]
  rfl

theorem apk_indexing_in_bounds_witness :
    (apkReconstruct [s2l "a", s2l "b"] [s2l "a-1"]).isSome = true :=
  apk_indexing_in_bounds.1 [s2l "a", s2l "b"] [s2l "a-1"] (by decide)
